import Mathlib

/-!
Verification of the lotto649 repository (two C variants:
`lotto649_portable.c` and `lotto649.c`) against its specification.

The development shallowly embeds the C sources:

* the xorshift128+ engine is abstracted as a stream `s : ℕ → ℕ` of 64-bit
  outputs (the sole way the rest of the program consumes the engine is one
  `xorshift128plus()` value per Fisher–Yates step);
* the 49-slot pool array is a function `ℕ → ℕ` (index ↦ value), swaps are
  pointwise function updates;
* `qsort` on the first 6 slots is modelled by `List.insertionSort (· ≤ ·)`
  (a comparison sort producing the sorted permutation; on the pairwise
  distinct keys produced here the sorted permutation is unique);
* 64-bit unsigned arithmetic is `ℕ` with explicit `% 2 ^ 64`;
* the growable `seen` table is a `List ℕ` (empty list = the initial NULL
  pointer, length = `capacity`), and the unbounded probe loop in
  `already_seen` is given fuel equal to the capacity: the C loop steps
  `i = (i + 1) & mask`, so after `capacity` probes it has visited every
  slot and from then on repeats them forever; `none` marks exactly the
  runs of the C loop that never terminate;
* the driver loop of `main` is modelled with fuel counting draw attempts;
  `RunOut.fuel` means the fuel ran out (the C program would still be
  running), `RunOut.diverge` means the C program is stuck forever inside
  the `already_seen` probe loop.
-/

/-- 2^64, the modulus of all uint64 arithmetic in the sources. -/
def M64 : ℕ := 2 ^ 64

/-- The multiplicative constant `0x9e3779b97f4a7c15` used both by
`seed_rng` and `hash_ticket` in `lotto649_portable.c`. -/
def goldenGamma : ℕ := 0x9e3779b97f4a7c15

/-- `seed_rng` (lotto649_portable.c, lines 53-75) reduced to its final two
assignments: given the gathered 64-bit entropy value, it sets
`state[0] = entropy` and `state[1] = entropy ^ 0x9e3779b97f4a7c15`.
The platform-dependent entropy gathering is irrelevant to the claims and
is abstracted as the `entropy` argument. -/
def seed_rng (entropy : ℕ) : ℕ × ℕ :=
  (entropy, entropy ^^^ goldenGamma)

/-- One step of `hash_ticket`'s accumulator update
(`h = (h ^ (uint64_t)ticket[i]) * 0x9e3779b97f4a7c15`), with uint64
wrap-around made explicit. -/
def hashStep (h v : ℕ) : ℕ := ((h ^^^ v) * goldenGamma) % M64

/-- `hash_ticket` (lotto649_portable.c, lines 99-104): multiplicative hash
folding the 7 ticket values into an accumulator started at
`0x517cc1b727220a95`. -/
def hash_ticket (t : List ℕ) : ℕ := t.foldl hashStep 0x517cc1b727220a95

/-- The swap `t = pool[i]; pool[i] = pool[j]; pool[j] = t;` on a pool
modelled as a function from indices to values. -/
def swapFn (pool : ℕ → ℕ) (i j : ℕ) : ℕ → ℕ :=
  fun p => if p = i then pool j else if p = j then pool i else pool p

/-- The index permutation realised by one swap. -/
def swapIdx (i j : ℕ) : ℕ → ℕ :=
  fun p => if p = i then j else if p = j then i else p

/-- The Fisher–Yates loop `for (int i = 48; i > 0; i--)` of `draw_one`
(lotto649_portable.c, lines 88-91) and of `generate_ticket`
(lotto649.c, lines 41-46).  The list `js` holds the raw engine outputs,
one per step, first element used at `i = js.length`; each step swaps
slot `i` with slot `j = js-value % (i + 1)`. -/
def fySteps : List ℕ → (ℕ → ℕ) → (ℕ → ℕ)
  | [], pool => pool
  | v :: rest, pool =>
      fySteps rest (swapFn pool (rest.length + 1) (v % (rest.length + 2)))

/-- The initial pool `pool[i] = i + 1`, holding 1..49 at indices 0..48. -/
def pool0 : ℕ → ℕ := fun k => k + 1

/-- The 48 raw engine values a single shuffle consumes, reading the
abstract engine stream `s` starting at position `pos`. -/
def jsOf (s : ℕ → ℕ) (pos : ℕ) : List ℕ :=
  (List.range 48).map fun t => s (pos + t)

/-- `draw_one` (lotto649_portable.c, lines 83-95) as a function of the 48
raw engine values: shuffle the pool, take slots 0..6, sort only the
first six (the mains), keep slot 6 as the bonus. -/
def drawList (js : List ℕ) : List ℕ :=
  let pool := fySteps js pool0
  (List.insertionSort (· ≤ ·) ((List.range 6).map pool)) ++ [pool 6]

/-- `draw_one` reading its 48 engine values from stream `s` at `pos`. -/
def draw_one (s : ℕ → ℕ) (pos : ℕ) : List ℕ := drawList (jsOf s pos)

/-- `generate_ticket` (lotto649.c, lines 34-60), the simple variant:
same shuffle (with `rand() % (i + 1)` supplying the step values, read
from the abstract stream `s`), first six slots sorted, no bonus. -/
def generate_ticket (s : ℕ → ℕ) : List ℕ :=
  List.insertionSort (· ≤ ·) ((List.range 6).map (fySteps (jsOf s 0) pool0))

/-- `remember` (lotto649_portable.c, lines 110-122): allocate 1024 zeroed
slots on first use, double (zeroing the new half) when `index` reaches
the capacity, then store `h` at slot `index`. -/
def remember (tbl : List ℕ) (h index : ℕ) : List ℕ :=
  let t1 := if tbl.length = 0 then List.replicate 1024 0 else tbl
  let t2 := if t1.length ≤ index then t1 ++ List.replicate t1.length 0 else t1
  t2.set index h

/-- The probe loop of `already_seen` (lotto649_portable.c, lines 127-131):
`while (seen[i]) { if (seen[i] == h) return 1; i = (i+1) & mask; }`.
Fuel bounds the number of probes; `none` means the fuel ran out, which
for fuel = capacity means the C loop runs forever (it has visited every
slot and found neither `0` nor `h`). -/
def probeSeen (tbl : List ℕ) (h : ℕ) : ℕ → ℕ → Option Bool
  | 0, _ => none
  | fuel + 1, i =>
      let v := tbl.getD i 0
      if v = 0 then some false
      else if v = h then some true
      else probeSeen tbl h fuel ((i + 1) &&& (tbl.length - 1))

/-- `already_seen` (lotto649_portable.c, lines 124-133): NULL table means
not seen; otherwise probe from `h & (capacity - 1)`. -/
def already_seen (tbl : List ℕ) (h : ℕ) : Option Bool :=
  if tbl.length = 0 then some false
  else probeSeen tbl h tbl.length (h &&& (tbl.length - 1))

/-- Outcome of the portable variant's driver loop.  The C program has
exactly one way to finish (emit `want` tickets and `return 0`), so the
model needs two extra markers: `fuel` (attempt budget exhausted, the C
program would still be drawing) and `diverge` (the C program is stuck
forever inside the `already_seen` probe loop). -/
inductive RunOut where
  | diverge : RunOut
  | fuel : RunOut
  | ok : List (List ℕ) → List ℕ → RunOut
deriving DecidableEq, Repr

/-- The ticket loop of `main` (lotto649_portable.c, lines 148-158), with
`k` tickets already accepted (so the next `remember` uses index `k`,
matching the source's `remember(h, n - 1)`), reading engine values at
stream position `pos`, `fuel` draw attempts allowed. -/
def runAux (s : ℕ → ℕ) (want : ℕ) : ℕ → ℕ → ℕ → List ℕ → RunOut
  | 0, _, k, tbl => if want ≤ k then RunOut.ok [] tbl else RunOut.fuel
  | fuel + 1, pos, k, tbl =>
      if want ≤ k then RunOut.ok [] tbl
      else
        let t := draw_one s pos
        let h := hash_ticket t
        match already_seen tbl h with
        | none => RunOut.diverge
        | some true => runAux s want fuel (pos + 48) k tbl
        | some false =>
            match runAux s want fuel (pos + 48) (k + 1) (remember tbl h k) with
            | RunOut.ok ts tblF => RunOut.ok (t :: ts) tblF
            | r => r

/-- A whole run of the portable variant: `want` tickets requested, fresh
(NULL) seen-table, stream read from position 0. -/
def runFull (s : ℕ → ℕ) (want fuel : ℕ) : RunOut :=
  runAux s want fuel 0 0 []

/-- The tickets a finished run emitted. -/
def emitted : RunOut → List (List ℕ)
  | RunOut.ok ts _ => ts
  | _ => []

/-! ### C7: engine seeding decorrelates the two state words -/

/-- C7: for every 64-bit seed value (including zero), `seed_rng` sets
`state[0]` to the seed and `state[1]` to the seed XOR the odd constant
`0x9e3779b97f4a7c15`, so the two state words are unequal and are never
both zero. -/
theorem seed_rng_words_decorrelated (entropy : ℕ) (hlt : entropy < M64) :
    (seed_rng entropy).1 ≠ (seed_rng entropy).2 ∧
      ¬ ((seed_rng entropy).1 = 0 ∧ (seed_rng entropy).2 = 0) := by
  simp only [seed_rng]
  constructor
  · intro hEq
    have hg : entropy ^^^ (entropy ^^^ goldenGamma) = entropy ^^^ entropy := by
      rw [← hEq]
    rw [Nat.xor_cancel_left, Nat.xor_self] at hg
    exact absurd hg (by decide)
  · rintro ⟨h1, h2⟩
    rw [h1, Nat.zero_xor] at h2
    exact absurd h2 (by decide)

/-- Witness for `seed_rng_words_decorrelated` at the all-zero seed. -/
theorem seed_rng_words_decorrelated_witness :
    (0 : ℕ) < M64 ∧
      ((seed_rng 0).1 ≠ (seed_rng 0).2 ∧
        ¬ ((seed_rng 0).1 = 0 ∧ (seed_rng 0).2 = 0)) :=
  ⟨by decide, seed_rng_words_decorrelated 0 (by decide)⟩

/-! ### C4: a fingerprint of exactly 0 is lost by the Duplicate Guard

The source uses `0` both as the empty-slot sentinel of the `calloc`ed
table and as a possible fingerprint value, with no occupancy marker:
`remember` stores the raw value and `already_seen`'s probe loop
`while (seen[i])` stops on any zero slot.  Inserting the fingerprint `0`
therefore leaves the table indistinguishable from one that never held
it, and the subsequent lookup reports "not seen". -/

set_option maxRecDepth 100000 in
/-- C4 (code bug): after `remember(0, 0)` into a fresh table,
`already_seen(0)` returns false — the zero fingerprint is
indistinguishable from an empty slot, contradicting the spec's
requirement that the guard handle a true fingerprint of 0. -/
theorem zero_fingerprint_lost : already_seen (remember [] 0 0) 0 = some false := by
  decide

/-! ### C8: the ticket hash is sensitive to every position -/

/-- Each hash step stays below 2^64. -/
theorem hashStep_lt (h v : ℕ) : hashStep h v < M64 :=
  Nat.mod_lt _ (by decide)

/-- The hash accumulator stays below 2^64. -/
theorem foldl_hash_lt (l : List ℕ) : ∀ h, h < M64 → l.foldl hashStep h < M64 := by
  induction l with
  | nil => exact fun h hh => hh
  | cons v rest ih => exact fun h _ => ih (hashStep h v) (hashStep_lt h v)

/-- Multiplication by the odd constant is injective modulo 2^64. -/
theorem mulGamma_mod_inj (x y : ℕ) (hx : x < M64) (hy : y < M64)
    (hEq : x * goldenGamma % M64 = y * goldenGamma % M64) : x = y := by
  have hodd : Nat.Coprime 2 goldenGamma := Nat.coprime_two_left.mpr (by decide)
  have hcop : Nat.Coprime (2 ^ 64) goldenGamma := hodd.pow_left 64
  have hmod : x ≡ y [MOD M64] :=
    Nat.ModEq.cancel_right_of_coprime hcop hEq
  have hx2 : x % M64 = y % M64 := hmod
  rwa [Nat.mod_eq_of_lt hx, Nat.mod_eq_of_lt hy] at hx2

/-- Two different accumulator states stay different after one hash step
with the same value. -/
theorem hashStep_inj_state (a b v : ℕ) (ha : a < M64) (hb : b < M64)
    (hv : v < M64) (hab : a ≠ b) : hashStep a v ≠ hashStep b v := by
  intro hEq
  apply hab
  have hxy : a ^^^ v = b ^^^ v :=
    mulGamma_mod_inj (a ^^^ v) (b ^^^ v)
      (Nat.xor_lt_two_pow ha hv) (Nat.xor_lt_two_pow hb hv) hEq
  have := congrArg (fun z => z ^^^ v) hxy
  simpa [Nat.xor_cancel_right] using this

/-- One hash step separates two different values fed from the same
accumulator state. -/
theorem hashStep_inj_val (h x y : ℕ) (hh : h < M64) (hx : x < M64)
    (hy : y < M64) (hxy : x ≠ y) : hashStep h x ≠ hashStep h y := by
  intro hEq
  apply hxy
  have hstate : h ^^^ x = h ^^^ y :=
    mulGamma_mod_inj (h ^^^ x) (h ^^^ y)
      (Nat.xor_lt_two_pow hh hx) (Nat.xor_lt_two_pow hh hy) hEq
  have := congrArg (fun z => h ^^^ z) hstate
  simpa [Nat.xor_cancel_left] using this

/-- Folding the same value list over two different states keeps the
states different. -/
theorem foldl_hash_ne (l : List ℕ) : ∀ a b, (∀ v ∈ l, v < M64) →
    a < M64 → b < M64 → a ≠ b →
    l.foldl hashStep a ≠ l.foldl hashStep b := by
  induction l with
  | nil => exact fun a b _ _ _ hab => hab
  | cons v rest ih =>
      intro a b hv ha hb hab
      simp only [List.foldl_cons]
      exact ih (hashStep a v) (hashStep b v)
        (fun w hw => hv w (List.mem_cons_of_mem v hw))
        (hashStep_lt a v) (hashStep_lt b v)
        (hashStep_inj_state a b v ha hb (hv v (List.mem_cons_self v rest)) hab)

/-- C8: `hash_ticket` is sensitive to every position: two 7-value tickets
with entries in [1,49] that agree everywhere except at one position
(written as `a ++ x :: b` versus `a ++ y :: b` with `x ≠ y`) receive
different 64-bit fingerprints. -/
theorem hash_ticket_position_sensitive (a b : List ℕ) (x y : ℕ)
    (hlen : a.length + b.length = 6)
    (har : ∀ v ∈ a, 1 ≤ v ∧ v ≤ 49) (hbr : ∀ v ∈ b, 1 ≤ v ∧ v ≤ 49)
    (hxr : 1 ≤ x ∧ x ≤ 49) (hyr : 1 ≤ y ∧ y ≤ 49) (hxy : x ≠ y) :
    hash_ticket (a ++ x :: b) ≠ hash_ticket (a ++ y :: b) := by
  have h49 : (49 : ℕ) < M64 := by decide
  have hbM : ∀ v ∈ b, v < M64 := fun v hv => lt_of_le_of_lt (hbr v hv).2 h49
  unfold hash_ticket
  rw [List.foldl_append, List.foldl_append, List.foldl_cons, List.foldl_cons]
  have hacc : a.foldl hashStep 0x517cc1b727220a95 < M64 :=
    foldl_hash_lt a _ (by decide)
  exact foldl_hash_ne b _ _ hbM (hashStep_lt _ x) (hashStep_lt _ y)
    (hashStep_inj_val _ x y hacc (lt_of_le_of_lt hxr.2 h49)
      (lt_of_le_of_lt hyr.2 h49) hxy)

/-- Witness for `hash_ticket_position_sensitive`: two tickets differing
only in the bonus position. -/
theorem hash_ticket_position_sensitive_witness :
    hash_ticket [2, 3, 4, 5, 6, 7, 8] ≠ hash_ticket [2, 3, 4, 5, 6, 7, 9] :=
  hash_ticket_position_sensitive [2, 3, 4, 5, 6, 7] [] 8 9
    (by decide) (by decide) (by decide) (by decide) (by decide) (by decide)

/-! ### Pool invariants through the Fisher–Yates shuffle -/

/-- The pool invariant maintained by the shuffle: every slot below 49
holds a value in [1,49], and distinct slots below 49 hold distinct
values. -/
def PoolGood (pool : ℕ → ℕ) : Prop :=
  (∀ k, k < 49 → 1 ≤ pool k ∧ pool k ≤ 49) ∧
    (∀ k l, k < 49 → l < 49 → pool k = pool l → k = l)

theorem swapIdx_invol (i j p : ℕ) : swapIdx i j (swapIdx i j p) = p := by
  unfold swapIdx
  by_cases h1 : p = i
  · by_cases h2 : i = j <;> simp [h1, h2]
  · by_cases h2 : p = j
    · simp [h1, h2]
    · simp [h1, h2]

theorem swapFn_eq_comp (pool : ℕ → ℕ) (i j : ℕ) :
    swapFn pool i j = fun p => pool (swapIdx i j p) := by
  funext p
  unfold swapFn swapIdx
  by_cases h1 : p = i
  · simp [h1]
  · by_cases h2 : p = j
    · by_cases h3 : j = i <;> simp [h1, h2, h3]
    · simp [h1, h2]

theorem swapIdx_lt (i j p : ℕ) (hi : i < 49) (hj : j < 49) (hp : p < 49) :
    swapIdx i j p < 49 := by
  unfold swapIdx
  by_cases h1 : p = i
  · simp [h1, hj]
  · by_cases h2 : p = j
    · by_cases h3 : j = i <;> simp [h1, h2, h3, hi, hj]
    · simp [h1, h2, hp]

theorem swapFn_good (pool : ℕ → ℕ) (i j : ℕ) (hi : i < 49) (hj : j < 49)
    (hg : PoolGood pool) : PoolGood (swapFn pool i j) := by
  rw [swapFn_eq_comp]
  constructor
  · intro k hk
    exact hg.1 _ (swapIdx_lt i j k hi hj hk)
  · intro k l hk hl hEq
    have hkl : swapIdx i j k = swapIdx i j l :=
      hg.2 _ _ (swapIdx_lt i j k hi hj hk) (swapIdx_lt i j l hi hj hl) hEq
    have := congrArg (swapIdx i j) hkl
    rwa [swapIdx_invol, swapIdx_invol] at this

theorem fySteps_good : ∀ (js : List ℕ) (pool : ℕ → ℕ), js.length ≤ 48 →
    PoolGood pool → PoolGood (fySteps js pool) := by
  intro js
  induction js with
  | nil => exact fun pool _ hg => hg
  | cons v rest ih =>
      intro pool hlen hg
      simp only [fySteps]
      apply ih
      · exact le_trans (Nat.le_succ _) (by simpa using hlen)
      · apply swapFn_good
        · have : rest.length + 1 ≤ 48 := by simpa using hlen
          omega
        · have hj : v % (rest.length + 2) < rest.length + 2 :=
            Nat.mod_lt _ (by omega)
          have : rest.length + 1 ≤ 48 := by simpa using hlen
          omega
        · exact hg

theorem pool0_good : PoolGood pool0 := by
  constructor
  · intro k hk
    simp only [pool0]
    omega
  · intro k l _ _ hEq
    simp only [pool0] at hEq
    omega

theorem jsOf_length (s : ℕ → ℕ) (pos : ℕ) : (jsOf s pos).length = 48 := by
  simp [jsOf]

/-! ### C2: every generated ticket is well formed -/

/-- The sorted mains of a good pool: 6 pairwise distinct values in
[1,49], strictly ascending after the sort. -/
theorem mains_strict_sorted (pool : ℕ → ℕ) (hg : PoolGood pool) :
    List.Sorted (· < ·) (List.insertionSort (· ≤ ·) ((List.range 6).map pool)) := by
  have hnd : ((List.range 6).map pool).Nodup := by
    apply List.Nodup.map_on
    · intro a ha b hb hEq
      exact hg.2 a b (by simpa using lt_of_lt_of_le (List.mem_range.mp ha) (by norm_num))
        (by simpa using lt_of_lt_of_le (List.mem_range.mp hb) (by norm_num)) hEq
    · exact List.nodup_range 6
  have hnd2 : (List.insertionSort (· ≤ ·) ((List.range 6).map pool)).Nodup :=
    (List.perm_insertionSort (· ≤ ·) _).nodup_iff.mpr hnd
  have hsort : List.Sorted (· ≤ ·) (List.insertionSort (· ≤ ·) ((List.range 6).map pool)) :=
    List.sorted_insertionSort (· ≤ ·) _
  have := List.Pairwise.and hsort hnd2
  exact this.imp fun hab => lt_of_le_of_ne hab.1 hab.2

/-- C2: for every engine-output stream and position (portable variant)
and for every stream of `rand()` values (simple variant, covering every
`srand` seed), the generated ticket is well formed: the 6 main numbers
are strictly ascending (hence pairwise distinct) values in [1,49]; in
the portable variant the bonus is in [1,49] and differs from all six
mains, and the ticket has exactly 7 entries. -/
theorem generated_tickets_valid (s : ℕ → ℕ) (pos : ℕ) :
    ((draw_one s pos).length = 7 ∧
      List.Sorted (· < ·) ((draw_one s pos).take 6) ∧
      (∀ v ∈ (draw_one s pos).take 6, 1 ≤ v ∧ v ≤ 49) ∧
      (1 ≤ (draw_one s pos).getD 6 0 ∧ (draw_one s pos).getD 6 0 ≤ 49) ∧
      (draw_one s pos).getD 6 0 ∉ (draw_one s pos).take 6) ∧
    ((generate_ticket s).length = 6 ∧
      List.Sorted (· < ·) (generate_ticket s) ∧
      ∀ v ∈ generate_ticket s, 1 ≤ v ∧ v ≤ 49) := by
  have hgood : ∀ q : ℕ, PoolGood (fySteps (jsOf s q) pool0) := fun q =>
    fySteps_good _ _ (le_of_eq (jsOf_length s q)) pool0_good
  constructor
  · have hg := hgood pos
    set pool := fySteps (jsOf s pos) pool0 with hpool
    have hlen6 : (List.insertionSort (· ≤ ·) ((List.range 6).map pool)).length = 6 := by
      rw [List.length_insertionSort, List.length_map, List.length_range]
    have htake : (draw_one s pos).take 6 =
        List.insertionSort (· ≤ ·) ((List.range 6).map pool) := by
      unfold draw_one drawList
      exact List.take_left' hlen6
    have hbon : (draw_one s pos).getD 6 0 = pool 6 := by
      unfold draw_one drawList
      rw [List.getD_eq_getElem?_getD, List.getElem?_append_right (by rw [hlen6]),
        hlen6]
      simp
    refine ⟨?_, ?_, ?_, ?_, ?_⟩
    · unfold draw_one drawList
      rw [List.length_append, hlen6]
      simp
    · rw [htake]; exact mains_strict_sorted pool hg
    · rw [htake]
      intro v hv
      rw [List.mem_insertionSort] at hv
      obtain ⟨k, hk, rfl⟩ := List.mem_map.mp hv
      exact hg.1 k (lt_of_lt_of_le (List.mem_range.mp hk) (by norm_num))
    · rw [hbon]; exact hg.1 6 (by norm_num)
    · rw [htake, hbon]
      intro hmem
      rw [List.mem_insertionSort] at hmem
      obtain ⟨k, hk, hEq⟩ := List.mem_map.mp hmem
      have hk6 : k = 6 := hg.2 k 6 (lt_of_lt_of_le (List.mem_range.mp hk) (by norm_num))
        (by norm_num) hEq
      have hklt := List.mem_range.mp hk
      omega
  · have hg := hgood 0
    set pool := fySteps (jsOf s 0) pool0 with hpool
    refine ⟨?_, mains_strict_sorted pool hg, ?_⟩
    · unfold generate_ticket
      rw [List.length_insertionSort, List.length_map, List.length_range]
    · intro v hv
      unfold generate_ticket at hv
      rw [List.mem_insertionSort] at hv
      obtain ⟨k, hk, rfl⟩ := List.mem_map.mp hv
      exact hg.1 k (lt_of_lt_of_le (List.mem_range.mp hk) (by norm_num))

/-! ### C1: the Duplicate Guard misses duplicates

`remember` writes the `n`-th accepted fingerprint to the *sequential*
slot `n - 1`, but `already_seen` probes starting from `h & mask` as if
the fingerprint had been stored at its hash position.  The probe loop
stops at the first zero slot, so a fingerprint stored at a low
sequential index is invisible whenever `h & mask` points above the
filled prefix, and the same ticket can be emitted twice — contradicting
the spec and the source's own header comment ("zero duplicates"). -/

set_option maxRecDepth 1000000 in
/-- C1 (code bug): with every engine output zero and a requested count of
2, the portable driver emits the identical ticket twice: the run
completes, two tickets are emitted, and ticket 1 equals ticket 2 as a
full (main-set, bonus) value list. -/
theorem duplicate_ticket_emitted :
    (emitted (runFull (fun _ => 0) 2 2)).length = 2 ∧
      (emitted (runFull (fun _ => 0) 2 2)).getD 0 [] =
        (emitted (runFull (fun _ => 0) 2 2)).getD 1 [] ∧
      ¬ (emitted (runFull (fun _ => 0) 2 2)).Nodup := by
  decide

/-! ### C6: the command-line argument policy -/

/-- `isspace` in the default C locale. -/
def isSpaceC (c : Char) : Bool :=
  c == ' ' || c == '\t' || c == '\n' || c == '\x0b' || c == '\x0c' || c == '\r'

/-- Numeric value of a run of decimal digit characters. -/
def digitsVal (ds : List Char) : ℕ :=
  ds.foldl (fun a c => a * 10 + (c.toNat - 48)) 0

/-- `LONG_MAX` on an LP64 platform (the portable source stores the count
in a `long`). -/
def longMax : ℤ := 2 ^ 63 - 1

/-- `LONG_MIN` on an LP64 platform. -/
def longMin : ℤ := -(2 ^ 63)

/-- `strtol` clamps out-of-range values. -/
def clampLong (z : ℤ) : ℤ :=
  if z > longMax then longMax else if z < longMin then longMin else z

/-- `strtol(arg, &end, 10)`: skip whitespace, read an optional sign and a
longest run of decimal digits, clamp to the `long` range; on no
conversion return 0 with the end pointer reset to the argument start.
The second component is the remainder of the string after `end`. -/
def strtol10 (cs : List Char) : ℤ × List Char :=
  let cs1 := cs.dropWhile isSpaceC
  let signedTail : Bool × List Char :=
    match cs1 with
    | c :: r => if c == '-' then (true, r) else if c == '+' then (false, r) else (false, cs1)
    | [] => (false, cs1)
  let ds := signedTail.2.takeWhile Char.isDigit
  if ds.length = 0 then (0, cs)
  else
    let v : ℤ := (digitsVal ds : ℤ)
    (clampLong (if signedTail.1 then -v else v), signedTail.2.dropWhile Char.isDigit)

/-- The portable variant's argument policy (lotto649_portable.c, lines
139-145): default 5; accept `argv[1]` only when `strtol` consumed the
whole string (`*end == '\0'`) and the value is at least 1, otherwise
silently keep the default. -/
def wantPortable (arg : Option (List Char)) : ℤ :=
  match arg with
  | none => 5
  | some cs =>
      let p := strtol10 cs
      if p.2 = [] ∧ 1 ≤ p.1 then p.1 else 5

/-- Narrowing a `long` to a 32-bit `int` (two's-complement wrap into
`[-2^31, 2^31)`), as gcc on LP64 performs it. -/
def wrapInt32 (z : ℤ) : ℤ :=
  (z + 2147483648) % 4294967296 - 2147483648

/-- `atoi(arg)` as the source stores it into the 32-bit
`int count` (lotto649.c, line 65): glibc `atoi` is `(int)strtol(...)`,
i.e. the `strtol` value narrowed to the `int` range by the
two's-complement wrap. -/
def atoiVal (cs : List Char) : ℤ := wrapInt32 (strtol10 cs).1

/-- Outcome of the simple variant's argument handling: either a ticket
count (exit code 0) or the `Invalid ticket count` error (exit code 1). -/
inductive ArgResult where
  | count : ℤ → ArgResult
  | err : ArgResult
deriving DecidableEq, Repr

/-- The simple variant's argument policy (lotto649.c, lines 62-70):
default 5; otherwise `atoi` the argument and fail with a message and
exit code 1 when the result is ≤ 0. -/
def countSimple (arg : Option (List Char)) : ArgResult :=
  match arg with
  | none => ArgResult.count 5
  | some cs => if atoiVal cs ≤ 0 then ArgResult.err else ArgResult.count (atoiVal cs)

/-- Spec-side reading of a "numeric" argument for C6: a non-empty string
of decimal digits denoting a value of at least 1. -/
def isPosNumeral (cs : List Char) : Prop :=
  cs ≠ [] ∧ cs.all Char.isDigit = true ∧ 1 ≤ digitsVal cs

instance (cs : List Char) : Decidable (isPosNumeral cs) := by
  unfold isPosNumeral
  infer_instance

/-- C6 counterexample: the argument `12abc` is not a numeral, yet the
simple variant neither falls back to the default of 5 nor fails with a
non-zero exit: `atoi` reads the leading digits and the program prints 12
tickets, so the claimed two-way policy does not hold on this input. -/
theorem simple_variant_accepts_trailing_junk :
    ¬ isPosNumeral ['1', '2', 'a', 'b', 'c'] ∧
      countSimple (some ['1', '2', 'a', 'b', 'c']) = ArgResult.count 12 ∧
      countSimple (some ['1', '2', 'a', 'b', 'c']) ≠ ArgResult.err ∧
      countSimple (some ['1', '2', 'a', 'b', 'c']) ≠ ArgResult.count 5 := by
  decide

/-- C6 as amended: with no argument both variants produce 5 tickets; the
portable variant silently falls back to 5 on every argument that
`strtol` does not fully consume with value ≥ 1; the simple variant
stores `atoi` in a 32-bit `int` (the `strtol` value wrapped to the
`int` range) and fails (message, exit 1) exactly when that `int` is
≤ 0, otherwise producing that many tickets — accepting strings with a
positive digit prefix and trailing junk, such as `12abc`, and
rejecting numerals that wrap negative, such as `3000000000`.  (Both
policies are total functions: no input crashes either parser.) -/
theorem argument_policy_described :
    wantPortable none = 5 ∧
    countSimple none = ArgResult.count 5 ∧
    (∀ cs : List Char, ¬ ((strtol10 cs).2 = [] ∧ 1 ≤ (strtol10 cs).1) →
      wantPortable (some cs) = 5) ∧
    (∀ cs : List Char, atoiVal cs ≤ 0 → countSimple (some cs) = ArgResult.err) ∧
    (∀ cs : List Char, 1 ≤ atoiVal cs →
      countSimple (some cs) = ArgResult.count (atoiVal cs)) := by
  refine ⟨rfl, rfl, ?_, ?_, ?_⟩
  · intro cs hno
    simp only [wantPortable]
    exact if_neg hno
  · intro cs hle
    simp only [countSimple]
    exact if_pos hle
  · intro cs hge
    simp only [countSimple]
    exact if_neg (by omega)

/-- Witness for `argument_policy_described` at concrete arguments; the
last conjunct exercises the 32-bit wrap: `3000000000` exceeds `INT_MAX`,
wraps negative, and is rejected. -/
theorem argument_policy_described_witness :
    (¬ ((strtol10 ['a']).2 = [] ∧ 1 ≤ (strtol10 ['a']).1) ∧
      wantPortable (some ['a']) = 5) ∧
    (atoiVal ['a'] ≤ 0 ∧ countSimple (some ['a']) = ArgResult.err) ∧
    (1 ≤ atoiVal ['7'] ∧ countSimple (some ['7']) = ArgResult.count (atoiVal ['7'])) ∧
    (atoiVal ['3', '0', '0', '0', '0', '0', '0', '0', '0', '0'] ≤ 0 ∧
      countSimple (some ['3', '0', '0', '0', '0', '0', '0', '0', '0', '0']) =
        ArgResult.err) :=
  ⟨⟨by decide, argument_policy_described.2.2.1 ['a'] (by decide)⟩,
   ⟨by decide, argument_policy_described.2.2.2.1 ['a'] (by decide)⟩,
   ⟨by decide, argument_policy_described.2.2.2.2 ['7'] (by decide)⟩,
   ⟨by decide, argument_policy_described.2.2.2.1
      ['3', '0', '0', '0', '0', '0', '0', '0', '0', '0'] (by decide)⟩⟩

/-! ### `List.getD` helpers used by the seen-table proofs -/

theorem getD_set_same (l : List ℕ) (i a : ℕ) (hi : i < l.length) :
    (l.set i a).getD i 0 = a := by
  rw [List.getD_eq_getElem?_getD, List.getElem?_set_self hi]
  rfl

theorem getD_set_other (l : List ℕ) (i j a : ℕ) (hij : i ≠ j) :
    (l.set i a).getD j 0 = l.getD j 0 := by
  rw [List.getD_eq_getElem?_getD, List.getElem?_set_ne hij,
    ← List.getD_eq_getElem?_getD]

theorem getD_append_fst (l1 l2 : List ℕ) (n : ℕ) (hn : n < l1.length) :
    (l1 ++ l2).getD n 0 = l1.getD n 0 := by
  rw [List.getD_eq_getElem?_getD, List.getElem?_append_left hn,
    ← List.getD_eq_getElem?_getD]

theorem getD_append_snd (l1 l2 : List ℕ) (n : ℕ) (hn : l1.length ≤ n) :
    (l1 ++ l2).getD n 0 = l2.getD (n - l1.length) 0 := by
  rw [List.getD_eq_getElem?_getD, List.getElem?_append_right hn,
    ← List.getD_eq_getElem?_getD]

theorem getD_replicate_zero (n m : ℕ) : (List.replicate n 0).getD m 0 = 0 := by
  rw [List.getD_eq_getElem?_getD, List.getElem?_replicate]
  split <;> rfl

theorem getD_past_end (l : List ℕ) (n : ℕ) (hn : l.length ≤ n) : l.getD n 0 = 0 := by
  rw [List.getD_eq_getElem?_getD, List.getElem?_eq_none hn]
  rfl

/-! ### C9: fingerprints are stored sequentially, slot k for acceptance k -/

/-- The seen-table contents the driver maintains: the fingerprints of the
accepted tickets, in acceptance order, at slots `0 .. fps.length - 1`,
and zeros in every remaining slot. -/
def tableEncodes (tbl fps : List ℕ) : Prop :=
  fps.length ≤ tbl.length ∧
    (∀ m, m < fps.length → tbl.getD m 0 = fps.getD m 0) ∧
    (∀ m, m < tbl.length → fps.length ≤ m → tbl.getD m 0 = 0)

instance (tbl fps : List ℕ) : Decidable (tableEncodes tbl fps) := by
  unfold tableEncodes
  infer_instance

/-- `remember h fps.length` extends an encoding table by one fingerprint,
whether it has to allocate, grow, or just store. -/
theorem remember_encodes (tbl fps : List ℕ) (h : ℕ)
    (henc : tableEncodes tbl fps) :
    tableEncodes (remember tbl h fps.length) (fps ++ [h]) := by
  obtain ⟨hle, hval, hzero⟩ := henc
  by_cases h0 : tbl.length = 0
  · have hfps : fps = [] := List.eq_nil_of_length_eq_zero (by omega)
    subst hfps
    simp only [remember, h0, if_pos, List.length_nil, List.length_replicate]
    rw [if_neg (by norm_num)]
    refine ⟨?_, ?_, ?_⟩
    · rw [List.length_set, List.length_replicate, List.nil_append,
        List.length_cons, List.length_nil]
      omega
    · intro m hm
      have hm0 : m = 0 := by
        rw [List.nil_append, List.length_cons, List.length_nil] at hm
        omega
      subst hm0
      rw [List.nil_append,
        getD_set_same _ _ _ (by rw [List.length_replicate]; omega)]
      rfl
    · intro m hm hm1
      rw [List.nil_append, List.length_cons, List.length_nil] at hm1
      rw [List.length_set, List.length_replicate] at hm
      rw [getD_set_other _ _ _ _ (by omega), getD_replicate_zero]
  · simp only [remember, if_neg h0]
    rcases lt_or_eq_of_le hle with hlt | hEq
    · rw [if_neg (by omega)]
      refine ⟨by rw [List.length_set, List.length_append]; simp; omega, ?_, ?_⟩
      · intro m hm
        rw [List.length_append, List.length_cons, List.length_nil] at hm
        rcases Nat.lt_succ_iff_lt_or_eq.mp (by omega : m < fps.length + 1) with hm2 | hm2
        · rw [getD_set_other _ _ _ _ (by omega), hval m hm2,
            getD_append_fst _ _ _ hm2]
        · subst hm2
          rw [getD_set_same _ _ _ (by omega), getD_append_snd _ _ _ le_rfl,
            Nat.sub_self]
          rfl
      · intro m hm hm1
        rw [List.length_set] at hm
        rw [List.length_append, List.length_cons, List.length_nil] at hm1
        rw [getD_set_other _ _ _ _ (by omega)]
        exact hzero m hm (by omega)
    · rw [if_pos (by omega)]
      have hpos : 0 < tbl.length := by omega
      refine ⟨?_, ?_, ?_⟩
      · rw [List.length_set, List.length_append, List.length_append,
          List.length_replicate, List.length_cons, List.length_nil]
        omega
      · intro m hm
        rw [List.length_append, List.length_cons, List.length_nil] at hm
        rcases Nat.lt_succ_iff_lt_or_eq.mp (by omega : m < fps.length + 1) with hm2 | hm2
        · rw [getD_set_other _ _ _ _ (by omega),
            getD_append_fst _ _ _ (by omega), hval m hm2,
            getD_append_fst _ _ _ hm2]
        · subst hm2
          rw [getD_set_same _ _ _ (by rw [List.length_append, List.length_replicate]; omega),
            getD_append_snd _ _ _ le_rfl, Nat.sub_self]
          rfl
      · intro m hm hm1
        rw [List.length_set, List.length_append, List.length_replicate] at hm
        rw [List.length_append, List.length_cons, List.length_nil] at hm1
        rw [getD_set_other _ _ _ _ (by omega),
          getD_append_snd _ _ _ (by omega), getD_replicate_zero]

/-- Master invariant of the driver loop: starting from a table that
encodes the fingerprints `fps` of the `k = fps.length` tickets accepted
so far, a completed run leaves a table encoding `fps` extended by the
fingerprints of the newly emitted tickets, in emission order. -/
theorem runAux_ok_encodes (s : ℕ → ℕ) (want : ℕ) :
    ∀ (fuel pos k : ℕ) (tbl fps : List ℕ) (ts : List (List ℕ)) (tblF : List ℕ),
      tableEncodes tbl fps → fps.length = k →
      runAux s want fuel pos k tbl = RunOut.ok ts tblF →
      tableEncodes tblF (fps ++ ts.map hash_ticket) ∧ ts.length = want - k := by
  intro fuel
  induction fuel with
  | zero =>
      intro pos k tbl fps ts tblF henc hk hrun
      simp only [runAux] at hrun
      by_cases hwk : want ≤ k
      · rw [if_pos hwk] at hrun
        cases hrun
        refine ⟨by simpa using henc, ?_⟩
        simp only [List.length_nil]
        omega
      · rw [if_neg hwk] at hrun
        exact RunOut.noConfusion hrun
  | succ fuel ih =>
      intro pos k tbl fps ts tblF henc hk hrun
      simp only [runAux] at hrun
      by_cases hwk : want ≤ k
      · rw [if_pos hwk] at hrun
        cases hrun
        refine ⟨by simpa using henc, ?_⟩
        simp only [List.length_nil]
        omega
      · rw [if_neg hwk] at hrun
        split at hrun
        · exact RunOut.noConfusion hrun
        · exact ih (pos + 48) k tbl fps ts tblF henc hk hrun
        · split at hrun
          · rename_i ts2 tbl2 hrec
            injection hrun with h1 h2
            subst h1
            subst h2
            have henc2 : tableEncodes
                (remember tbl (hash_ticket (draw_one s pos)) k)
                (fps ++ [hash_ticket (draw_one s pos)]) := by
              rw [← hk]
              exact remember_encodes tbl fps _ ⟨henc.1, henc.2.1, henc.2.2⟩
            have hlen2 : (fps ++ [hash_ticket (draw_one s pos)]).length = k + 1 := by
              rw [List.length_append, List.length_cons, List.length_nil]
              omega
            obtain ⟨hencF, hlenF⟩ := ih (pos + 48) (k + 1) _ _ ts2 tbl2 henc2 hlen2 hrec
            constructor
            · rw [List.map_cons]
              rw [List.append_assoc] at hencF
              simpa using hencF
            · rw [List.length_cons]
              omega
          · rename_i r hrec hne
            exact absurd hrun (hne ts tblF)

/-- C9: in every completed run of the portable driver, the seen table
ends up holding exactly the fingerprints of the emitted tickets, in
emission order, at the sequential slots `0 .. want - 1` (the k-th
accepted ticket's fingerprint at slot `k - 1`), with every other slot
zero — the slot is the acceptance index, not a hash-derived position. -/
theorem run_table_sequential (s : ℕ → ℕ) (want fuel : ℕ)
    (ts : List (List ℕ)) (tblF : List ℕ)
    (hrun : runFull s want fuel = RunOut.ok ts tblF) :
    tableEncodes tblF (ts.map hash_ticket) ∧ ts.length = want := by
  have := runAux_ok_encodes s want fuel 0 0 [] [] ts tblF
    (by exact ⟨by simp, by simp, by simp⟩) rfl hrun
  simpa using this

/-! ### C10: every guard lookup terminates while a zero slot exists -/

/-- The probe step `(i + 1) & (1024 - 1)` is arithmetic modulo 1024. -/
theorem mask_step_mod (i : ℕ) : i &&& 1023 = i % 1024 := by
  have h := Nat.and_pow_two_sub_one_eq_mod i 10
  norm_num at h
  exact h

/-- The probe loop stops within `fuel` steps as soon as some slot on its
route holds `0` or the probed fingerprint. -/
theorem probeSeen_stops (tbl : List ℕ) (h : ℕ) (hlen : tbl.length = 1024) :
    ∀ (fuel i0 : ℕ), i0 < 1024 →
      (∃ m, m < fuel ∧ (tbl.getD ((i0 + m) % 1024) 0 = 0 ∨
        tbl.getD ((i0 + m) % 1024) 0 = h)) →
      probeSeen tbl h fuel i0 ≠ none := by
  intro fuel
  induction fuel with
  | zero =>
      intro i0 _ hex
      obtain ⟨m, hm, _⟩ := hex
      omega
  | succ fuel ih =>
      intro i0 hi0 hex
      simp only [probeSeen]
      by_cases hz : tbl.getD i0 0 = 0
      · rw [if_pos hz]
        exact Option.noConfusion
      · rw [if_neg hz]
        by_cases hh : tbl.getD i0 0 = h
        · rw [if_pos hh]
          exact Option.noConfusion
        · rw [if_neg hh]
          obtain ⟨m, hm, hslot⟩ := hex
          rcases Nat.eq_zero_or_pos m with hm0 | hmpos
          · subst hm0
            rw [Nat.add_zero, Nat.mod_eq_of_lt hi0] at hslot
            rcases hslot with h1 | h1
            · exact absurd h1 hz
            · exact absurd h1 hh
          · have hstep : (i0 + 1) &&& (tbl.length - 1) = (i0 + 1) % 1024 := by
              rw [hlen]
              exact mask_step_mod (i0 + 1)
            rw [hstep]
            apply ih ((i0 + 1) % 1024) (Nat.mod_lt _ (by norm_num))
            refine ⟨m - 1, by omega, ?_⟩
            have harith : ((i0 + 1) % 1024 + (m - 1)) % 1024 = (i0 + m) % 1024 := by
              rw [Nat.mod_add_mod]
              congr 1
              omega
            rw [harith]
            exact hslot

/-- A capacity-1024 table with a zero slot never hangs the guard. -/
theorem already_seen_stops (tbl : List ℕ) (h : ℕ) (hlen : tbl.length = 1024)
    (hzero : ∃ z, z < 1024 ∧ tbl.getD z 0 = 0) :
    already_seen tbl h ≠ none := by
  obtain ⟨z, hz, hz0⟩ := hzero
  unfold already_seen
  rw [if_neg (by omega)]
  have hmask : h &&& (tbl.length - 1) = h % 1024 := by
    rw [hlen]
    exact mask_step_mod h
  rw [hmask, hlen]
  set i0 := h % 1024 with hi0def
  have hi0 : i0 < 1024 := Nat.mod_lt _ (by norm_num)
  apply probeSeen_stops tbl h hlen 1024 i0 hi0
  refine ⟨(z + 1024 - i0) % 1024, Nat.mod_lt _ (by norm_num), ?_⟩
  have harith : (i0 + (z + 1024 - i0) % 1024) % 1024 = z := by
    rw [Nat.add_mod_mod]
    have hsum : i0 + (z + 1024 - i0) = z + 1024 := by omega
    rw [hsum, Nat.add_mod_right, Nat.mod_eq_of_lt hz]
  rw [harith]
  exact Or.inl hz0

/-- Run-level shape of the seen table relevant to lookup termination:
nothing allocated yet (before the first acceptance), or capacity 1024
with zeros everywhere at and above slot `k`. -/
def tableShape (tbl : List ℕ) (k : ℕ) : Prop :=
  (tbl = [] ∧ k = 0) ∨
    (tbl.length = 1024 ∧ ∀ m, m < 1024 → k ≤ m → tbl.getD m 0 = 0)

/-- While fewer than 1024 tickets have been requested, every lookup the
driver performs terminates, so the run never gets stuck in the guard. -/
theorem runAux_no_diverge (s : ℕ → ℕ) (want : ℕ) (hwant : want ≤ 1024) :
    ∀ (fuel pos k : ℕ) (tbl : List ℕ), tableShape tbl k → k ≤ want →
      runAux s want fuel pos k tbl ≠ RunOut.diverge := by
  intro fuel
  induction fuel with
  | zero =>
      intro pos k tbl _ _
      simp only [runAux]
      split
      · exact RunOut.noConfusion
      · exact RunOut.noConfusion
  | succ fuel ih =>
      intro pos k tbl hshape hkw
      simp only [runAux]
      by_cases hwk : want ≤ k
      · rw [if_pos hwk]
        exact RunOut.noConfusion
      · rw [if_neg hwk]
        have hklt : k < want := by omega
        rcases hshape with ⟨htbl, hk0⟩ | ⟨hlen, hzs⟩
        · subst htbl
          subst hk0
          have hsee : already_seen [] (hash_ticket (draw_one s pos)) = some false := rfl
          rw [hsee]
          have hshape2 : tableShape (remember [] (hash_ticket (draw_one s pos)) 0) 1 := by
            right
            constructor
            · simp only [remember, List.length_nil, if_pos, List.length_replicate]
              rw [if_neg (by norm_num), List.length_set, List.length_replicate]
            · intro m hm hm1
              simp only [remember, List.length_nil, if_pos, List.length_replicate]
              rw [if_neg (by norm_num),
                getD_set_other _ _ _ _ (by omega), getD_replicate_zero]
          have hrec := ih (pos + 48) 1 _ hshape2 (by omega)
          rcases hr : runAux s want fuel (pos + 48) 1
              (remember [] (hash_ticket (draw_one s pos)) 0) with _ | _ | ⟨ts2, tbl2⟩
          · exact absurd hr hrec
          · exact fun hcon => RunOut.noConfusion hcon
          · exact fun hcon => RunOut.noConfusion hcon
        · have hzk : tbl.getD k 0 = 0 := hzs k (by omega) le_rfl
          have hsee := already_seen_stops tbl (hash_ticket (draw_one s pos)) hlen
            ⟨k, by omega, hzk⟩
          rcases hb : already_seen tbl (hash_ticket (draw_one s pos)) with _ | b
          · exact absurd hb hsee
          · cases b
            · have hshape2 : tableShape (remember tbl (hash_ticket (draw_one s pos)) k)
                  (k + 1) := by
                right
                have hnz : ¬ tbl.length = 0 := by omega
                constructor
                · simp only [remember, if_neg hnz]
                  rw [if_neg (by omega), List.length_set]
                  exact hlen
                · intro m hm hm1
                  simp only [remember, if_neg hnz]
                  rw [if_neg (by omega), getD_set_other _ _ _ _ (by omega)]
                  exact hzs m hm (by omega)
              have hrec := ih (pos + 48) (k + 1) _ hshape2 (by omega)
              rcases hr : runAux s want fuel (pos + 48) (k + 1)
                  (remember tbl (hash_ticket (draw_one s pos)) k) with _ | _ | ⟨ts2, tbl2⟩
              · exact absurd hr hrec
              · exact fun hcon => RunOut.noConfusion hcon
              · exact fun hcon => RunOut.noConfusion hcon
            · exact ih (pos + 48) k tbl (Or.inr ⟨hlen, hzs⟩) (by omega)

/-- C10: (a) a guard lookup on the capacity-1024 table terminates whenever
some slot is zero; (b) consequently a run requesting at most 1024
tickets never diverges inside the guard: one slot is filled per
acceptance and the capacity stays 1024 until the 1025th acceptance, so
a zero slot is always available to stop the probe loop. -/
theorem guard_lookup_terminates :
    (∀ (tbl : List ℕ) (h : ℕ), tbl.length = 1024 →
      (∃ z, z < 1024 ∧ tbl.getD z 0 = 0) → already_seen tbl h ≠ none) ∧
    (∀ (s : ℕ → ℕ) (want fuel : ℕ), want ≤ 1024 →
      runFull s want fuel ≠ RunOut.diverge) :=
  ⟨fun tbl h hlen hex => already_seen_stops tbl h hlen hex,
   fun s want fuel hwant =>
     runAux_no_diverge s want hwant fuel 0 0 [] (Or.inl ⟨rfl, rfl⟩) (Nat.zero_le _)⟩

set_option maxRecDepth 100000 in
/-- Witness for `guard_lookup_terminates` at a fresh table and a small
run. -/
theorem guard_lookup_terminates_witness :
    ((List.replicate 1024 0).length = 1024 ∧
      (∃ z, z < 1024 ∧ (List.replicate 1024 0).getD z 0 = 0) ∧
      already_seen (List.replicate 1024 0) 7 ≠ none) ∧
    ((3 : ℕ) ≤ 1024 ∧ runFull (fun _ => 0) 3 0 ≠ RunOut.diverge) :=
  ⟨⟨by simp, ⟨0, by norm_num, by rw [getD_replicate_zero]⟩,
      guard_lookup_terminates.1 (List.replicate 1024 0) 7 (by simp)
        ⟨0, by norm_num, by rw [getD_replicate_zero]⟩⟩,
   ⟨by norm_num, guard_lookup_terminates.2 (fun _ => 0) 3 0 (by norm_num)⟩⟩

set_option maxRecDepth 1000000 in
/-- Witness for `run_table_sequential`: a one-ticket run with the
all-zeros engine stream. -/
theorem run_table_sequential_witness :
    runFull (fun _ => 0) 1 1 = RunOut.ok [draw_one (fun _ => 0) 0]
        (remember [] (hash_ticket (draw_one (fun _ => 0) 0)) 0) ∧
      tableEncodes (remember [] (hash_ticket (draw_one (fun _ => 0) 0)) 0)
        ([draw_one (fun _ => 0) 0].map hash_ticket) ∧
      ([draw_one (fun _ => 0) 0] : List (List ℕ)).length = 1 := by
  have hrun : runFull (fun _ => 0) 1 1 = RunOut.ok [draw_one (fun _ => 0) 0]
      (remember [] (hash_ticket (draw_one (fun _ => 0) 0)) 0) := by decide
  have hres := run_table_sequential (fun _ => 0) 1 1 _ _ hrun
  exact ⟨hrun, hres.1, hres.2⟩

/-! ### C3: no exhaustion error exists; the retry loop can spin forever

The portable driver's only outcomes are "emit `want` tickets, exit 0"
or keep looping: there is no exhaustion detection anywhere in the
source (`RunOut` has no error constructor because `main` has no error
path).  With the constant engine stream that always outputs 416, the
first accepted ticket's fingerprint happens to land on probe slot
`h & 1023 = 0` — exactly where `remember` stored it — so every retry
for ticket 2 is rejected as already seen and the run never finishes,
for a requested count exceeding the `C(49,6) × 43 = 601304088` distinct
(main-set, bonus) outcomes. -/

/-- A constant engine stream yields the same 48 step values at every
draw position. -/
theorem jsOf_const (c pos : ℕ) : jsOf (fun _ => c) pos = List.replicate 48 c := by
  unfold jsOf
  rw [List.map_const', List.length_range]

/-- Every draw from a constant stream produces the same ticket. -/
theorem draw_one_const (c pos : ℕ) :
    draw_one (fun _ => c) pos = drawList (List.replicate 48 c) := by
  unfold draw_one
  rw [jsOf_const]

/-- The seen table after the first acceptance in the constant-416 run. -/
def tbl416 : List ℕ :=
  remember [] (hash_ticket (drawList (List.replicate 48 416))) 0

set_option maxRecDepth 1000000 in
/-- The guard never misses the stored first fingerprint in the
constant-416 run: the probe starts at slot `h & 1023 = 0`, which is
exactly the sequential slot `remember` used. -/
theorem already_seen_tbl416 : already_seen tbl416
    (hash_ticket (drawList (List.replicate 48 416))) = some true := by
  decide

/-- A NULL table reports nothing as seen. -/
theorem already_seen_nil (h : ℕ) : already_seen [] h = some false := rfl

/-- If every redraw keeps producing an already-seen ticket, the driver
loop never finishes, whatever its attempt budget. -/
theorem runAux_stuck (s : ℕ → ℕ) (want k : ℕ) (tbl : List ℕ)
    (hkw : ¬ want ≤ k)
    (hsee : ∀ pos : ℕ,
      already_seen tbl (hash_ticket (draw_one s pos)) = some true) :
    ∀ fuel pos : ℕ, runAux s want fuel pos k tbl = RunOut.fuel := by
  intro fuel
  induction fuel with
  | zero =>
      intro pos
      simp only [runAux]
      rw [if_neg hkw]
  | succ fuel ih =>
      intro pos
      simp only [runAux]
      rw [if_neg hkw, hsee pos]
      exact ih (pos + 48)

/-- The second ticket's draw loop never succeeds: the constant stream
redraws the stored ticket and the guard keeps rejecting it. -/
theorem runAux_stuck_const416 :
    ∀ (fuel pos : ℕ),
      runAux (fun _ => 416) 601304089 fuel pos 1 tbl416 = RunOut.fuel :=
  runAux_stuck (fun _ => 416) 601304089 1 tbl416 (by norm_num)
    (fun q => by rw [draw_one_const]; exact already_seen_tbl416)

/-- A run whose first drawn ticket is accepted and then reproduced
forever never finishes. -/
theorem runFull_stuck_after_first (s : ℕ → ℕ) (want : ℕ) (hw : ¬ want ≤ 0)
    (hstuck : ∀ fuel pos : ℕ, runAux s want fuel pos 1
      (remember [] (hash_ticket (draw_one s 0)) 0) = RunOut.fuel) :
    ∀ fuel : ℕ, runFull s want fuel = RunOut.fuel := by
  intro fuel
  cases fuel with
  | zero =>
      simp only [runFull, runAux]
      rw [if_neg hw]
  | succ fuel =>
      simp only [runFull, runAux]
      rw [if_neg hw, already_seen_nil, hstuck fuel 48]

/-- The number of distinct (main-set, bonus) outcomes. -/
theorem choose49_6_mul_43 : Nat.choose 49 6 * 43 = 601304088 := by
  rw [Nat.choose_eq_descFactorial_div_factorial]
  rfl

/-- C3 (code bug): requesting 601304089 tickets — more than the
`C(49,6) × 43 = 601304088` representable distinct tickets — does NOT
terminate with an exhaustion error: with the constant-416 engine
stream the run is still drawing after every finite number of attempts
(it never completes and never reports anything; the source has no
exhaustion detection at all). -/
theorem no_exhaustion_error_ever :
    Nat.choose 49 6 * 43 < 601304089 ∧
      ∀ fuel : ℕ, runFull (fun _ => 416) 601304089 fuel = RunOut.fuel := by
  constructor
  · rw [choose49_6_mul_43]
    norm_num
  · exact runFull_stuck_after_first (fun _ => 416) 601304089 (by norm_num)
      (fun fuel pos => by rw [draw_one_const]; exact runAux_stuck_const416 fuel pos)

/-! ### C5: outcome counting over the full engine-output space

`draw_one` consumes 48 uint64 engine outputs.  Counting over all
`(2^64)^48` output sequences, the claim that every (main-set, bonus)
outcome has the same number of preimage sequences is impossible: the
outcomes partition the `2^3072` sequences into `C(49,6)·43` classes, and
43 (an odd prime factor of the class count) does not divide `2^3072`.
This is the formal face of the modulo bias of `next() % (i + 1)` that
the spec itself calls "negligible" — small, but not zero.  Reachability
of every outcome, by contrast, does hold, and is proved constructively
below. -/

/-- Ticket well-formedness for a draw from an explicit 48-value list
(same statement as the C2 theorem, usable for arbitrary `js`). -/
theorem drawList_props (js : List ℕ) (hlen : js.length ≤ 48) :
    (drawList js).length = 7 ∧
      List.Sorted (· < ·) ((drawList js).take 6) ∧
      (∀ v ∈ (drawList js).take 6, 1 ≤ v ∧ v ≤ 49) ∧
      (1 ≤ (drawList js).getD 6 0 ∧ (drawList js).getD 6 0 ≤ 49) ∧
      (drawList js).getD 6 0 ∉ (drawList js).take 6 := by
  have hg : PoolGood (fySteps js pool0) := fySteps_good _ _ hlen pool0_good
  set pool := fySteps js pool0 with hpool
  have hlen6 : (List.insertionSort (· ≤ ·) ((List.range 6).map pool)).length = 6 := by
    rw [List.length_insertionSort, List.length_map, List.length_range]
  have htake : (drawList js).take 6 =
      List.insertionSort (· ≤ ·) ((List.range 6).map pool) := by
    unfold drawList
    exact List.take_left' hlen6
  have hbon : (drawList js).getD 6 0 = pool 6 := by
    unfold drawList
    rw [List.getD_eq_getElem?_getD, List.getElem?_append_right (by rw [hlen6]), hlen6]
    simp
  refine ⟨?_, ?_, ?_, ?_, ?_⟩
  · unfold drawList
    rw [List.length_append, hlen6]
    simp
  · rw [htake]; exact mains_strict_sorted pool hg
  · rw [htake]
    intro v hv
    rw [List.mem_insertionSort] at hv
    obtain ⟨k, hk, rfl⟩ := List.mem_map.mp hv
    exact hg.1 k (lt_of_lt_of_le (List.mem_range.mp hk) (by norm_num))
  · rw [hbon]; exact hg.1 6 (by norm_num)
  · rw [htake, hbon]
    intro hmem
    rw [List.mem_insertionSort] at hmem
    obtain ⟨k, hk, hEq⟩ := List.mem_map.mp hmem
    have hk6 : k = 6 := hg.2 k 6 (lt_of_lt_of_le (List.mem_range.mp hk) (by norm_num))
      (by norm_num) hEq
    have hklt := List.mem_range.mp hk
    omega

/-- The (sorted-main-set, bonus) outcome of a ticket. -/
def outcomeOf (t : List ℕ) : Finset ℕ × ℕ := ((t.take 6).toFinset, t.getD 6 0)

/-- The `C(49,6)` six-element subsets of [1,49]. -/
def mainSets : Finset (Finset ℕ) := (Finset.Icc 1 49).powersetCard 6

/-- Membership in `mainSets`, proved before the definition is made
irreducible below. -/
theorem mem_mainSets (S : Finset ℕ) :
    S ∈ mainSets ↔ S ⊆ Finset.Icc 1 49 ∧ S.card = 6 := by
  unfold mainSets
  exact Finset.mem_powersetCard

attribute [irreducible] mainSets

/-- The space of all valid (main-set, bonus) outcomes: 6-element subsets
of [1,49] paired with a bonus in [1,49] outside the main set — the
`C(49,6) × 43` possible tickets.  (`mainSets` is kept irreducible so
that definitional unfolding of a membership statement can never try to
enumerate the 13983816 subsets.) -/
def outSpace : Finset (Finset ℕ × ℕ) :=
  (mainSets ×ˢ Finset.Icc 1 49).filter fun p => p.2 ∉ p.1

/-- Membership in the outcome space, element-wise. -/
theorem mem_outSpace (o : Finset ℕ × ℕ) :
    o ∈ outSpace ↔
      (o.1 ⊆ Finset.Icc 1 49 ∧ o.1.card = 6) ∧ o.2 ∈ Finset.Icc 1 49 ∧ o.2 ∉ o.1 := by
  unfold outSpace
  rw [Finset.mem_filter, Finset.mem_product, mem_mainSets]
  tauto

/-- One draw as a function of a full 48-tuple of 64-bit engine outputs. -/
def drawU (s : Fin 48 → Fin M64) : List ℕ :=
  drawList ((List.finRange 48).map fun k => (s k).val)

/-- The number of engine-output sequences whose draw realises outcome
`o`. -/
def seqCount (o : Finset ℕ × ℕ) : ℕ :=
  (Finset.univ.filter fun s : Fin 48 → Fin M64 => outcomeOf (drawU s) = o).card

set_option maxRecDepth 8000

/-- Every draw from at most 48 step values lands in the outcome
space. -/
theorem outcomeOf_drawList_mem (js : List ℕ) (hlen : js.length ≤ 48) :
    outcomeOf (drawList js) ∈ outSpace := by
  obtain ⟨hlen7, hsorted, hmem, hbon, hnb⟩ := drawList_props js hlen
  have hnd : ((drawList js).take 6).Nodup := hsorted.nodup
  have htl : ((drawList js).take 6).length = 6 := by
    rw [List.length_take, hlen7]
    decide
  rw [mem_outSpace]
  simp only [outcomeOf]
  refine ⟨⟨?_, ?_⟩, ?_, ?_⟩
  · intro x hx
    rw [List.mem_toFinset] at hx
    have := hmem x hx
    exact Finset.mem_Icc.mpr this
  · rw [List.toFinset_card_of_nodup hnd, htl]
  · exact Finset.mem_Icc.mpr hbon
  · intro hx
    rw [List.mem_toFinset] at hx
    exact hnb hx

/-- Every draw lands in the outcome space. -/
theorem outcomeOf_drawU_mem (s : Fin 48 → Fin M64) :
    outcomeOf (drawU s) ∈ outSpace :=
  outcomeOf_drawList_mem _ (by rw [List.length_map, List.length_finRange])

/-- The outcome fibers partition the `(2^64)^48` engine-output
sequences. -/
theorem seqCount_sum : ∑ o ∈ outSpace, seqCount o = M64 ^ 48 := by
  have h1 : (Finset.univ : Finset (Fin 48 → Fin M64)).card =
      ∑ o ∈ outSpace, seqCount o :=
    Finset.card_eq_sum_card_fiberwise fun s _ => outcomeOf_drawU_mem s
  rw [← h1, Finset.card_univ, Fintype.card_fun, Fintype.card_fin, Fintype.card_fin]

/-- The fiber of `outSpace` over a fixed main set `S` is the product of
`{S}` with the 43 admissible bonuses. -/
theorem outSpace_fiber_eq (S : Finset ℕ) (hS : S ∈ mainSets) :
    outSpace.filter (fun p => p.1 = S) =
      {S} ×ˢ ((Finset.Icc 1 49).filter fun b => b ∉ S) := by
  have hSsub : S ⊆ Finset.Icc 1 49 := ((mem_mainSets S).mp hS).1
  have hScard : S.card = 6 := ((mem_mainSets S).mp hS).2
  ext p
  rw [Finset.mem_filter, mem_outSpace, Finset.mem_product,
    Finset.mem_singleton, Finset.mem_filter]
  constructor
  · rintro ⟨⟨⟨hsub, hcard⟩, hIcc, hnot⟩, heq⟩
    exact ⟨heq, hIcc, heq ▸ hnot⟩
  · rintro ⟨h1, h2, h3⟩
    refine ⟨⟨⟨?_, ?_⟩, h2, ?_⟩, h1⟩
    · rw [h1]; exact hSsub
    · rw [h1]; exact hScard
    · rw [h1]; exact h3

/-- Each main set admits exactly 43 bonuses. -/
theorem outSpace_fiber_card (S : Finset ℕ) (hS : S ∈ mainSets) :
    (outSpace.filter fun p => p.1 = S).card = 43 := by
  have hSsub : S ⊆ Finset.Icc 1 49 := ((mem_mainSets S).mp hS).1
  have hScard : S.card = 6 := ((mem_mainSets S).mp hS).2
  rw [outSpace_fiber_eq S hS, Finset.card_product, Finset.card_singleton, one_mul]
  rw [Finset.filter_not, Finset.filter_mem_eq_inter,
    Finset.inter_eq_right.mpr hSsub, Finset.card_sdiff hSsub, hScard,
    Nat.card_Icc]

/-- `outSpace` decomposes fiberwise over the main sets. -/
theorem outSpace_card_fiberwise : outSpace.card = ∑ S ∈ mainSets,
    (outSpace.filter fun p => p.1 = S).card :=
  Finset.card_eq_sum_card_fiberwise fun p hp => by
    rw [mem_mainSets]
    exact ((mem_outSpace p).mp hp).1

/-- 43 divides the number of valid outcomes (each of the `C(49,6)` main
sets admits exactly 43 bonuses). -/
theorem outSpace_card_dvd : (43 : ℕ) ∣ outSpace.card := by
  rw [outSpace_card_fiberwise, Finset.sum_const_nat outSpace_fiber_card]
  exact dvd_mul_left 43 _

/-- The base outcome `({1,…,6}, 7)` is a valid outcome. -/
theorem baseOutcome_mem : ((({1, 2, 3, 4, 5, 6} : Finset ℕ)), 7) ∈ outSpace := by
  rw [mem_outSpace]
  refine ⟨⟨?_, ?_⟩, ?_, ?_⟩
  · decide
  · decide
  · decide
  · decide

/-- C5 counterexample: the outcomes are NOT all realised by the same
number of engine-output sequences.  If they were, their common count
times the number `C(49,6)·43` of outcomes would equal `2^3072`, making
the odd prime 43 divide a power of two. -/
theorem outcome_preimage_counts_differ :
    ¬ ∀ o1 ∈ outSpace, ∀ o2 ∈ outSpace, seqCount o1 = seqCount o2 := by
  intro hAll
  have hsum : ∑ o ∈ outSpace, seqCount o =
      outSpace.card * seqCount ({1, 2, 3, 4, 5, 6}, 7) := by
    exact Finset.sum_const_nat fun o hoo => hAll o hoo _ baseOutcome_mem
  have heq : outSpace.card * seqCount ({1, 2, 3, 4, 5, 6}, 7) = M64 ^ 48 := by
    rw [← hsum, seqCount_sum]
  have hdvd : (43 : ℕ) ∣ 2 ^ 3072 := by
    have h1 : (43 : ℕ) ∣ M64 ^ 48 := by
      rw [← heq]
      exact dvd_mul_of_dvd_left outSpace_card_dvd _
    have h2 : M64 ^ 48 = 2 ^ 3072 := by
      unfold M64
      rw [← pow_mul]
    rwa [h2] at h1
  have hp : Nat.Prime 43 := by norm_num
  have h43 : (43 : ℕ) ∣ 2 := hp.dvd_of_dvd_pow hdvd
  exact absurd h43 (by norm_num)

/-! ### Fisher–Yates realises every permutation of the pool indices -/

theorem swapIdx_at_snd (i j : ℕ) : swapIdx i j j = i := by
  unfold swapIdx
  by_cases h : j = i
  · simp [h]
  · simp [h]

theorem swapIdx_lt_gen (n i j p : ℕ) (hi : i < n) (hj : j < n) (hp : p < n) :
    swapIdx i j p < n := by
  unfold swapIdx
  by_cases h1 : p = i
  · simp [h1, hj]
  · by_cases h2 : p = j
    · by_cases h3 : j = i <;> simp [h1, h2, h3, hi, hj]
    · simp [h1, h2, hp]

theorem swapIdx_inj (i j a b : ℕ) (h : swapIdx i j a = swapIdx i j b) : a = b := by
  have := congrArg (swapIdx i j) h
  rwa [swapIdx_invol, swapIdx_invol] at this

/-- A permutation of the indices `0 .. n-1`, written as a function on `ℕ`
that fixes everything from `n` up. -/
def PermBelow (n : ℕ) (τ : ℕ → ℕ) : Prop :=
  (∀ m, m < n → τ m < n) ∧ (∀ m, n ≤ m → τ m = m) ∧
    ∀ a b, a < n → b < n → τ a = τ b → a = b

/-- The Fisher–Yates loop realises every index permutation: for any
permutation `τ` of `0 .. n` there is a list of `n` step values (the
value for step `i` at most `n`, hence taken unchanged by `% (i + 1)`)
whose swaps turn any pool into its `τ`-rearrangement. -/
theorem fy_realizes : ∀ (n : ℕ) (τ : ℕ → ℕ), PermBelow (n + 1) τ →
    ∀ pool : ℕ → ℕ, ∃ js : List ℕ, js.length = n ∧ (∀ v ∈ js, v ≤ n) ∧
      fySteps js pool = fun p => pool (τ p) := by
  intro n
  induction n with
  | zero =>
      intro τ hτ pool
      refine ⟨[], rfl, by simp, ?_⟩
      simp only [fySteps]
      funext p
      rcases Nat.lt_or_ge p 1 with hp | hp
      · have hp0 : p = 0 := by omega
        subst hp0
        have h0 : τ 0 < 1 := hτ.1 0 (by norm_num)
        have h00 : τ 0 = 0 := by omega
        rw [h00]
      · rw [hτ.2.1 p hp]
  | succ n ih =>
      intro τ hτ pool
      have hjlt : τ (n + 1) < n + 2 := hτ.1 (n + 1) (by omega)
      have hσj : swapIdx (n + 1) (τ (n + 1)) (τ (n + 1)) = n + 1 :=
        swapIdx_at_snd (n + 1) (τ (n + 1))
      have hτ2 : PermBelow (n + 1) (fun p => swapIdx (n + 1) (τ (n + 1)) (τ p)) := by
        refine ⟨?_, ?_, ?_⟩
        · intro m hm
          show swapIdx (n + 1) (τ (n + 1)) (τ m) < n + 1
          have hτm : τ m < n + 2 := hτ.1 m (by omega)
          have hlt : swapIdx (n + 1) (τ (n + 1)) (τ m) < n + 2 :=
            swapIdx_lt_gen (n + 2) _ _ _ (by omega) hjlt hτm
          have hne : swapIdx (n + 1) (τ (n + 1)) (τ m) ≠ n + 1 := by
            intro hcon
            have h1 : swapIdx (n + 1) (τ (n + 1)) (τ m) =
                swapIdx (n + 1) (τ (n + 1)) (τ (n + 1)) := by
              rw [hσj, hcon]
            have h2 : τ m = τ (n + 1) := swapIdx_inj _ _ _ _ h1
            have h3 : m = n + 1 := hτ.2.2 m (n + 1) (by omega) (by omega) h2
            omega
          omega
        · intro m hm
          show swapIdx (n + 1) (τ (n + 1)) (τ m) = m
          rcases Nat.eq_or_lt_of_le hm with hEq | hlt
          · rw [← hEq, hσj]
          · have hm2 : n + 2 ≤ m := by omega
            rw [hτ.2.1 m hm2]
            unfold swapIdx
            rw [if_neg (by omega), if_neg (by omega)]
        · intro a b ha hb hEq
          exact hτ.2.2 a b (by omega) (by omega) (swapIdx_inj _ _ _ _ hEq)
      obtain ⟨rest, hrlen, hrbound, hrfy⟩ :=
        ih _ hτ2 (swapFn pool (n + 1) (τ (n + 1)))
      refine ⟨τ (n + 1) :: rest, by simp [hrlen], ?_, ?_⟩
      · intro v hv
        rcases List.mem_cons.mp hv with hv1 | hv2
        · omega
        · exact le_trans (hrbound v hv2) (by omega)
      · simp only [fySteps, hrlen]
        rw [Nat.mod_eq_of_lt (by omega : τ (n + 1) < n + 2)]
        rw [hrfy]
        funext p
        rw [swapFn_eq_comp]
        simp only []
        rw [swapIdx_invol]

/-- For every valid (main-set, bonus) pair there are 48 step values whose
draw produces exactly that ticket. -/
theorem outcome_realized (S : Finset ℕ) (b : ℕ) (hSsub : S ⊆ Finset.Icc 1 49)
    (hScard : S.card = 6) (hbIcc : b ∈ Finset.Icc 1 49) (hbS : b ∉ S) :
    ∃ js : List ℕ, js.length = 48 ∧ (∀ v ∈ js, v ≤ 48) ∧
      outcomeOf (drawList js) = (S, b) := by
  have hb1 : 1 ≤ b := (Finset.mem_Icc.mp hbIcc).1
  have hb49 : b ≤ 49 := (Finset.mem_Icc.mp hbIcc).2
  have hmlen : (Finset.sort (· ≤ ·) S).length = 6 := by
    rw [Finset.length_sort, hScard]
  have hmnd : (Finset.sort (· ≤ ·) S).Nodup := Finset.sort_nodup (· ≤ ·) S
  have hmrange : ∀ m ∈ Finset.sort (· ≤ ·) S, 1 ≤ m ∧ m ≤ 49 := fun m hm =>
    Finset.mem_Icc.mp (hSsub (Finset.mem_sort (· ≤ ·) |>.mp hm))
  -- the target index arrangement: main indices, bonus index, the rest
  set A := (Finset.sort (· ≤ ·) S).map (fun m => m - 1) with hAdef
  set others := (List.range 49).filter
    (fun k => decide (k + 1 ∉ S ∧ k + 1 ≠ b)) with hothersdef
  set idxL := A ++ (b - 1) :: others with hidxdef
  have hAlen : A.length = 6 := by rw [hAdef, List.length_map, hmlen]
  have hAmem : ∀ x ∈ A, ∃ m ∈ Finset.sort (· ≤ ·) S, m - 1 = x := by
    intro x hx
    rw [hAdef] at hx
    obtain ⟨m, hm, hmx⟩ := List.mem_map.mp hx
    exact ⟨m, hm, hmx⟩
  have hOmem : ∀ x ∈ others, x < 49 ∧ x + 1 ∉ S ∧ x + 1 ≠ b := by
    intro x hx
    rw [hothersdef] at hx
    have h1 := List.mem_filter.mp hx
    have h2 := of_decide_eq_true h1.2
    exact ⟨List.mem_range.mp h1.1, h2.1, h2.2⟩
  have hnd : idxL.Nodup := by
    rw [hidxdef, List.nodup_append]
    refine ⟨?_, ?_, ?_⟩
    · rw [hAdef]
      apply List.Nodup.map_on ?_ hmnd
      intro x hx y hy hxy
      have h1 := (hmrange x hx).1
      have h2 := (hmrange y hy).1
      omega
    · rw [List.nodup_cons]
      constructor
      · intro hcon
        have := (hOmem _ hcon).2.2
        omega
      · rw [hothersdef]
        exact (List.nodup_range 49).filter _
    · intro x hxA hxT
      obtain ⟨m, hm, hmx⟩ := hAmem x hxA
      have hmS : m ∈ S := Finset.mem_sort (· ≤ ·) |>.mp hm
      have hm1 := (hmrange m hm).1
      rcases List.mem_cons.mp hxT with hxb | hxO
      · have : m = b := by omega
        exact hbS (this ▸ hmS)
      · have h3 := (hOmem x hxO).2.1
        have : x + 1 = m := by omega
        exact h3 (this ▸ hmS)
  have htoF : idxL.toFinset = (List.range 49).toFinset := by
    ext x
    rw [List.mem_toFinset, List.mem_toFinset, List.mem_range, hidxdef,
      List.mem_append, List.mem_cons]
    constructor
    · rintro (hxA | hxb | hxO)
      · obtain ⟨m, hm, hmx⟩ := hAmem x hxA
        have := hmrange m hm
        omega
      · omega
      · exact (hOmem x hxO).1
    · intro hx49
      by_cases hxS : x + 1 ∈ S
      · left
        rw [hAdef]
        apply List.mem_map.mpr
        exact ⟨x + 1, Finset.mem_sort (· ≤ ·) |>.mpr hxS, by omega⟩
      · by_cases hxb : x + 1 = b
        · right; left; omega
        · right; right
          rw [hothersdef]
          apply List.mem_filter.mpr
          exact ⟨List.mem_range.mpr hx49, decide_eq_true ⟨hxS, hxb⟩⟩
  have hperm : idxL.Perm (List.range 49) :=
    List.perm_of_nodup_nodup_toFinset_eq hnd (List.nodup_range 49) htoF
  have hlenL : idxL.length = 49 := by
    rw [hperm.length_eq, List.length_range]
  -- the permutation below 49 induced by the arrangement
  have hPB : PermBelow 49 (fun k => idxL.getD k k) := by
    refine ⟨?_, ?_, ?_⟩
    · intro m hm
      show idxL.getD m m < 49
      have hm2 : m < idxL.length := by omega
      rw [List.getD_eq_getElem?_getD, List.getElem?_eq_getElem hm2]
      have hmem : idxL[m] ∈ idxL := List.getElem_mem hm2
      have := hperm.mem_iff.mp hmem
      exact List.mem_range.mp this
    · intro m hm
      show idxL.getD m m = m
      rw [List.getD_eq_getElem?_getD, List.getElem?_eq_none (by omega)]
      rfl
    · intro a b2 ha hb2 hEq
      have hEq0 : idxL.getD a a = idxL.getD b2 b2 := hEq
      have ha2 : a < idxL.length := by omega
      have hb3 : b2 < idxL.length := by omega
      rw [List.getD_eq_getElem?_getD, List.getElem?_eq_getElem ha2,
        List.getD_eq_getElem?_getD, List.getElem?_eq_getElem hb3] at hEq0
      have hEq2 : idxL[a] = idxL[b2] := hEq0
      exact (hnd.getElem_inj_iff).mp hEq2
  obtain ⟨js, h48, hbound, hfy⟩ := fy_realizes 48 _ hPB pool0
  -- the first seven pool slots after the shuffle
  have hval : ∀ k, k < 7 → fySteps js pool0 k = pool0 (idxL.getD k k) := by
    intro k _
    rw [hfy]
  have hval6 : ∀ k, k < 6 →
      fySteps js pool0 k = (Finset.sort (· ≤ ·) S).getD k 0 := by
    intro k hk
    rw [hval k (by omega)]
    have hkA : k < A.length := by omega
    have hkm : k < (Finset.sort (· ≤ ·) S).length := by omega
    have hg1 : idxL[k]? = A[k]? := by
      rw [hidxdef]
      exact List.getElem?_append_left hkA
    have hg2 : A[k]? = some ((Finset.sort (· ≤ ·) S)[k] - 1) := by
      rw [hAdef, List.getElem?_map, List.getElem?_eq_getElem hkm]
      rfl
    have h3 : 1 ≤ (Finset.sort (· ≤ ·) S)[k] :=
      (hmrange _ (List.getElem_mem hkm)).1
    rw [List.getD_eq_getElem?_getD, hg1, hg2]
    rw [List.getD_eq_getElem?_getD, List.getElem?_eq_getElem hkm]
    show (Finset.sort (· ≤ ·) S)[k] - 1 + 1 = (Finset.sort (· ≤ ·) S)[k]
    omega
  have hval7 : fySteps js pool0 6 = b := by
    rw [hval 6 (by omega)]
    have hg1 : idxL[6]? = some (b - 1) := by
      rw [hidxdef, List.getElem?_append_right (by omega : A.length ≤ 6), hAlen]
      simp
    rw [List.getD_eq_getElem?_getD, hg1]
    show b - 1 + 1 = b
    omega
  refine ⟨js, h48, hbound, ?_⟩
  have hmap : (List.range 6).map (fySteps js pool0) = Finset.sort (· ≤ ·) S := by
    apply List.ext_getElem
    · rw [List.length_map, List.length_range, hmlen]
    · intro i h1 h2
      rw [List.getElem_map, List.getElem_range]
      have h3 := hval6 i (by rw [List.length_map, List.length_range] at h1; omega)
      rw [h3, List.getD_eq_getElem?_getD, List.getElem?_eq_getElem h2]
      rfl
  have hticket : drawList js = Finset.sort (· ≤ ·) S ++ [b] := by
    show List.insertionSort (· ≤ ·) ((List.range 6).map (fySteps js pool0)) ++
      [fySteps js pool0 6] = Finset.sort (· ≤ ·) S ++ [b]
    rw [hmap, hval7]
    rw [(Finset.sort_sorted (· ≤ ·) S).insertionSort_eq]
  rw [hticket]
  unfold outcomeOf
  rw [List.take_left' hmlen]
  rw [getD_append_snd _ _ _ (by omega), hmlen, Nat.sub_self]
  rw [Finset.sort_toFinset]
  rfl

/-- C5 as amended: every one of the `C(49,6) × 43` valid (main-set,
bonus) outcomes is reachable — some 48-tuple of 64-bit engine outputs
draws exactly that ticket.  (Exact equality of the preimage counts,
the other half of the original claim, is refuted above: the
`next() % (i+1)` reduction is biased, as the spec itself concedes.) -/
theorem every_outcome_reachable (o : Finset ℕ × ℕ) (ho : o ∈ outSpace) :
    ∃ s : Fin 48 → Fin M64, outcomeOf (drawU s) = o := by
  obtain ⟨S, b⟩ := o
  have hm := (mem_outSpace (S, b)).mp ho
  obtain ⟨js, h48, hbound, hout⟩ := outcome_realized S b hm.1.1 hm.1.2 hm.2.1 hm.2.2
  have hB : ∀ k : Fin 48, js.getD k.val 0 < M64 := by
    intro k
    have hk : k.val < js.length := by rw [h48]; exact k.isLt
    rw [List.getD_eq_getElem?_getD, List.getElem?_eq_getElem hk]
    simp only [Option.getD_some]
    have := hbound _ (List.getElem_mem hk)
    calc js[k.val] ≤ 48 := this
      _ < M64 := by norm_num [M64]
  refine ⟨fun k => ⟨js.getD k.val 0, hB k⟩, ?_⟩
  show outcomeOf (drawList ((List.finRange 48).map fun k : Fin 48 =>
    js.getD k.val 0)) = (S, b)
  have hlist : ((List.finRange 48).map fun k : Fin 48 => js.getD k.val 0) = js := by
    apply List.ext_getElem
    · rw [List.length_map, List.length_finRange, h48]
    · intro i h1 h2
      rw [List.getElem_map, List.getElem_finRange]
      simp only [Fin.coe_cast]
      rw [List.getD_eq_getElem?_getD, List.getElem?_eq_getElem h2]
      rfl
  rw [hlist]
  exact hout

/-- Witness for `every_outcome_reachable` at the base outcome. -/
theorem every_outcome_reachable_witness :
    ((({1, 2, 3, 4, 5, 6} : Finset ℕ)), 7) ∈ outSpace ∧
      ∃ s : Fin 48 → Fin M64,
        outcomeOf (drawU s) = ((({1, 2, 3, 4, 5, 6} : Finset ℕ)), 7) :=
  ⟨baseOutcome_mem, every_outcome_reachable _ baseOutcome_mem⟩
